import Mathlib

/-!
Shallow embedding of the core pipeline of `blender-llm-addin-V2.py`:
the code extraction and sanitization gate (`preprocess_code`), the scene
snapshot reader (`describe_scene`), the provider adapters (`openai_agent`,
`llm_agent`), the CODE-mode worker (`ai_code_worker_thread`) and the
main-thread drain callback (`process_queue_timer`).

Python strings are modeled as `List Char`.  Host I/O (the actual network
call, the Blender scene handle, `ast.parse`, `exec`) is modeled by explicit
parameters: the syntax check of `ast.parse` is an oracle `parses : Text → Bool`,
the success of `exec` on one queue entry is an oracle `execOk : Text → Bool`,
and the numeric display of a rounded coordinate is a parameter `fmt : ℚ → Text`.
-/

namespace BlenderLLM

/-- A Python `str`, modeled as its list of characters. -/
abbrev Text := List Char

/-- Shorthand turning a Lean string literal into the character-list model. -/
def cs (s : String) : Text := s.toList

/-- The ASCII whitespace characters removed by Python `str.strip()`. -/
def isPySpace (c : Char) : Bool :=
  c = ' ' || c = '\t' || c = '\n' || c = '\r' || c = '\x0b' || c = '\x0c'

/-- The characters `[ \t]` that the regexes inside `textwrap.dedent` treat as
indentation. -/
def isIndentChar (c : Char) : Bool := c = ' ' || c = '\t'

/-- Python `str.strip()`: drop leading and trailing whitespace. -/
def pyStrip (l : Text) : Text :=
  ((l.dropWhile isPySpace).reverse.dropWhile isPySpace).reverse

/-- Python's substring test `pat in l`. -/
def containsSub (pat l : Text) : Bool := decide (pat <:+: l)

/-- Python `text.split('\n')` (always returns at least one line; lines do not
contain the separator). -/
def splitLines : Text → List Text
  | [] => [[]]
  | c :: rest =>
    if c = '\n' then [] :: splitLines rest
    else
      match splitLines rest with
      | [] => [[c]]
      | l :: ls => (c :: l) :: ls

/-- Python `'\n'.join(lines)`. -/
def joinLines : List Text → Text
  | [] => []
  | [l] => l
  | l :: ls => l ++ '\n' :: joinLines ls

/-- Step `code.replace('\t', '    ')` from `preprocess_code`. -/
def tabRepl (l : Text) : Text :=
  l.flatMap fun c => if c = '\t' then cs "    " else [c]

/-- The substitution `_whitespace_only_re.sub('', text)` inside
`textwrap.dedent`: a line consisting solely of `[ \t]` becomes empty. -/
def wsOnlyBlank (l : Text) : Text := if l.all isIndentChar then [] else l

/-- Longest common prefix of two character lists; `textwrap.dedent`'s margin
update (keep margin on `indent.startswith(margin)`, shrink to `indent` on
`margin.startswith(indent)`, otherwise cut at the first mismatch) computes
exactly this. -/
def commonPrefix : Text → Text → Text
  | a :: as, b :: bs => if a = b then a :: commonPrefix as bs else []
  | _, _ => []

/-- The margin computed by `textwrap.dedent`: fold of the longest common
prefix over the `[ \t]*` indents of the lines that still contain a
non-whitespace character. -/
def dedentMargin (lines : List Text) : Text :=
  match (lines.filter (fun l => !l.isEmpty)).map (fun l => l.takeWhile isIndentChar) with
  | [] => []
  | i :: rest => rest.foldl commonPrefix i

/-- Substitution `re.sub(r'(?m)^' + margin, '', text)` acting on one line: remove `margin`
once if the line starts with it. -/
def dedentLine (margin l : Text) : Text :=
  if margin.isPrefixOf l then l.drop margin.length else l

/-- Model of `textwrap.dedent` (CPython's implementation): blank the whitespace-only
lines, compute the common margin of the remaining lines, strip it from every
line. -/
def dedent (text : Text) : Text :=
  let lines := (splitLines text).map wsOnlyBlank
  joinLines (lines.map (dedentLine (dedentMargin lines)))

/-- First occurrence of `pat` in a text, returning the part before it and the
part after it.  `re.search` of a literal pattern: leftmost match wins. -/
def splitOnFirst (pat : Text) : Text → Option (Text × Text)
  | [] => if pat.isEmpty then some ([], []) else none
  | c :: rest =>
    if pat.isPrefixOf (c :: rest) then some ([], (c :: rest).drop pat.length)
    else
      match splitOnFirst pat rest with
      | some (pre, post) => some (c :: pre, post)
      | none => none

/-- Closing delimiter shared by all three fence patterns. -/
def fenceClose : Text := cs "```"

/-- Search `re.search(opener + '(.*?)' + close, text, re.DOTALL)` for literal
opener and the literal triple-backtick close: find the first
occurrence of the opening delimiter, then the shortest body up to the next
closing triple backtick. -/
def fenceExtract (opener : Text) (text : Text) : Option Text :=
  match splitOnFirst opener text with
  | none => none
  | some (_, rest) =>
    match splitOnFirst fenceClose rest with
    | none => none
    | some (body, _) => some body

/-- The pattern loop of `preprocess_code`: try the python-tagged, py-tagged
and untagged fences in order, first matching pattern wins, and the captured
group is stripped (`match.group(1).strip()`). -/
def extractFenced (text : Text) : Option Text :=
  match fenceExtract (cs "```python\n") text with
  | some body => some (pyStrip body)
  | none =>
    match fenceExtract (cs "```py\n") text with
    | some body => some (pyStrip body)
    | none =>
      match fenceExtract (cs "```\n") text with
      | some body => some (pyStrip body)
      | none => none

/-- The unfenced fallback of `preprocess_code`: treat the whole response as
code when it contains a bpy marker (`'import bpy' in text or 'bpy.' in text`),
otherwise reject. -/
def bpyFallback (text : Text) : Option Text :=
  if containsSub (cs "import bpy") text || containsSub (cs "bpy.") text then
    some (pyStrip text)
  else none

/-- The extraction phase of `preprocess_code`, including the `if not code:`
test: an empty stripped fenced body is falsy in Python and also falls through
to the bpy fallback. -/
def extractCode (text : Text) : Option Text :=
  match extractFenced text with
  | some code => if code.isEmpty then bpyFallback text else some code
  | none => bpyFallback text

/-- Denylist `["shutil", "subprocess", "ctypes", "socket"]` from the gate. -/
def denyLibs : List Text := [cs "shutil", cs "subprocess", cs "ctypes", cs "socket"]

/-- The denylist loop: `if f"import {lib}" in code or f"from {lib}" in code:
raise`. -/
def denyListed (code : Text) : Bool :=
  denyLibs.any fun lib =>
    containsSub (cs "import " ++ lib) code || containsSub (cs "from " ++ lib) code

/-- Gate `preprocess_code(text)`: extract, normalize (tabs to four spaces, dedent),
reject on a denylisted import, reject on a syntax error, otherwise return the
cleaned code.  Every rejection (including a raised denylist exception and a
`SyntaxError` from `ast.parse`) is caught and becomes the empty string.
`parses` is the `ast.parse` oracle. -/
def preprocess_code (parses : Text → Bool) (text : Text) : Text :=
  match extractCode text with
  | none => []
  | some extracted =>
    let code := dedent (tabRepl extracted)
    if denyListed code then []
    else if parses code then code else []

/-- List `CLOUD_MODELS` from the configuration section. -/
def CLOUD_MODELS : List Text :=
  [cs "qwen3-coder:480b-cloud", cs "gpt-oss:120b-cloud",
   cs "gpt-oss:20b-cloud", cs "deepseek-v3.1:671b-cloud"]

/-- Predicate `is_cloud_model(model_name)`: membership in `CLOUD_MODELS` or the
`-cloud` suffix. -/
def is_cloud_model (model_name : Text) : Bool :=
  CLOUD_MODELS.contains model_name || (cs "-cloud").isSuffixOf model_name

/-- One role-tagged chat message. -/
structure ChatMessage where
  role : Text
  content : Text
deriving DecidableEq

/-- The explicit sampling options `{'temperature': 0.1, 'num_predict': 2048}`
passed to cloud-variant models by `llm_agent`. -/
structure OllamaOptions where
  temperature : ℚ
  num_predict : ℕ
deriving DecidableEq

/-- The request `llm_agent` hands to `ollama.chat`: model, messages, and the
optional sampling options. -/
structure OllamaRequest where
  model : Text
  messages : List ChatMessage
  options : Option OllamaOptions
deriving DecidableEq

/-- The message list built by `llm_agent`: a system message only when
`system_prompt` is non-empty, then the user message. -/
def llm_agent_messages (prompt system_prompt : Text) : List ChatMessage :=
  (if system_prompt.isEmpty then [] else [⟨cs "system", system_prompt⟩])
    ++ [⟨cs "user", prompt⟩]

/-- The call `llm_agent` makes: cloud models (per `is_cloud_model`) get the
explicit options dict, non-cloud local models are called without options. -/
def llm_agent_request (option prompt system_prompt : Text) : OllamaRequest :=
  if is_cloud_model option then
    ⟨option, llm_agent_messages prompt system_prompt, some ⟨1/10, 2048⟩⟩
  else
    ⟨option, llm_agent_messages prompt system_prompt, none⟩

/-- Result of `openai_agent`: the completion text on success; on any exception
the caught handler returns `f"Error: {str(e)}"` instead of raising. -/
def openai_agent (callResult : Except Text Text) : Text :=
  match callResult with
  | Except.ok content => content
  | Except.error e => cs "Error: " ++ e

/-- The terminal status `ai_code_worker_thread` writes when
`preprocess_code` returns an empty (falsy) result. -/
def noValidCodeMsg : Text := cs "Error: No valid code generated. Check console for details."

/-- Observable outcome of one CODE-mode worker run: the execution queue after
the run, the last status message the worker wrote, and whether it registered
the drain timer. -/
structure WorkerRun where
  queue : List Text
  status : Text
  timerRegistered : Bool
deriving DecidableEq

/-- Run of `ai_code_worker_thread` after the adapter returned `output_text`, acting
on a queue holding `q`: run the gate; on a falsy result write the terminal
error status and enqueue nothing; otherwise enqueue the cleaned code and
register `process_queue_timer` (the last status written before that is
"Processing code..."). -/
def ai_code_worker_thread (parses : Text → Bool) (output_text : Text)
    (q : List Text) : WorkerRun :=
  let clean_code := preprocess_code parses output_text
  if clean_code.isEmpty then ⟨q, noValidCodeMsg, false⟩
  else ⟨q ++ [clean_code], cs "Processing code...", true⟩

/-- Observable outcome of one invocation of the drain callback: the entries
popped and executed (with the per-entry `exec` success recorded), the queue
contents when the callback returns, and its return value (`None` tells the
Blender timer system not to re-register). -/
structure TimerRun where
  executed : List (Text × Bool)
  finalQueue : List Text
  retval : Option ℚ
deriving DecidableEq

/-- Run of `process_queue_timer` on a queue holding `q`: `while not empty: get;
try: exec(code) except: log` — each entry is popped and executed, a failing
entry is caught and the loop continues, and the function returns `None`. -/
def process_queue_timer (execOk : Text → Bool) : List Text → TimerRun
  | [] => ⟨[], [], none⟩
  | code :: rest =>
    let r := process_queue_timer execOk rest
    ⟨(code, execOk code) :: r.executed, r.finalQueue, r.retval⟩

/-- Rounding `round(c, 2)` of a coordinate, modeled on ℚ (the Python value is a float;
half-up rounding on ℚ stands in for the float rounding, which no claim
depends on). -/
def round2 (q : ℚ) : ℚ := (⌊q * 100 + 1/2⌋ : ℤ) / 100

/-- One scene object as `describe_scene` reads it: the fields it accesses,
plus `formatRaises` modeling whether accessing/formatting the fields raises
(the `except Exception: continue` case). -/
structure BObject where
  name : Text
  objType : Text
  location : ℚ × ℚ × ℚ
  rotation_mode : Text
  rotation_euler : ℚ × ℚ × ℚ
  scale : ℚ × ℚ × ℚ
  active_material : Option Text
  formatRaises : Bool

/-- Python's tuple display `(a, b, c)` with the numeric rendering abstracted
by `fmt`. -/
def fmtTriple (fmt : ℚ → Text) (t : ℚ × ℚ × ℚ) : Text :=
  cs "(" ++ fmt t.1 ++ cs ", " ++ fmt t.2.1 ++ cs ", " ++ fmt t.2.2 ++ cs ")"

/-- Componentwise `round(c, 2)`. -/
def roundTriple (t : ℚ × ℚ × ℚ) : ℚ × ℚ × ℚ :=
  (round2 t.1, round2 t.2.1, round2 t.2.2)

/-- The f-string line built by `describe_scene` for one object; the rotation
field is the literal `Quaternion` marker when `rotation_mode == 'QUATERNION'`,
otherwise the rounded Euler triple. -/
def formatLine (fmt : ℚ → Text) (o : BObject) : Text :=
  cs "- Name: " ++ o.name ++ cs " | Type: " ++ o.objType
    ++ cs " | Loc: " ++ fmtTriple fmt (roundTriple o.location)
    ++ cs " | Rot: "
    ++ (if o.rotation_mode = cs "QUATERNION" then cs "Quaternion"
        else fmtTriple fmt (roundTriple o.rotation_euler))
    ++ cs " | Scale: " ++ fmtTriple fmt (roundTriple o.scale)
    ++ cs " | Mat: " ++ (match o.active_material with
                         | some m => m
                         | none => cs "None")

/-- The per-object `try` body: a raising object is skipped (`continue`),
otherwise its line is appended. -/
def objLine (fmt : ℚ → Text) (o : BObject) : Option Text :=
  if o.formatRaises then none else some (formatLine fmt o)

/-- The `desc` list of `describe_scene`: at most the first 50 objects
(`objects[:50]`), raising objects skipped. -/
def sceneLines (fmt : ℚ → Text) (objs : List BObject) : List Text :=
  (objs.take 50).filterMap (objLine fmt)

/-- Output of `describe_scene()`: the joined lines, or the literal `"Scene is empty."`
sentinel when no line was produced. -/
def describe_scene (fmt : ℚ → Text) (objs : List BObject) : Text :=
  let desc := sceneLines fmt objs
  if desc.isEmpty then cs "Scene is empty." else joinLines desc

/-- Backtick character, written by code point. -/
def bq : Char := '\x60'

/-- Wrapping a snippet in a fenced block with the given opening delimiter:
the form the round-trip property feeds to the gate. -/
def wrapFence (opener : Text) (s : Text) : Text := opener ++ s ++ '\n' :: fenceClose

/-- Head-character test used to characterise `str.strip` fixed points: true
when the text does not start with whitespace. -/
def noLeadSpace (l : Text) : Bool :=
  match l with
  | [] => true
  | c :: _ => !isPySpace c

/-- A text is stripped when it neither starts nor ends with whitespace. -/
def strippedB (l : Text) : Bool := noLeadSpace l && noLeadSpace l.reverse

/-- Decidable check that no nonempty suffix of `w` is a prefix of `pat`;
used to rule out a fence pattern spanning the boundary between a concrete
opening delimiter and the wrapped snippet. -/
def overlapCheck (w pat : Text) : Bool :=
  (List.range (w.length + 1)).all fun k =>
    (w.drop k).isEmpty || !((w.drop k).isPrefixOf pat)

/-- Fixed numeric rendering used for concrete witnesses. -/
def fmtZero : ℚ → Text := fun _ => cs "0.0"

/-- A well-behaved euler-mode mesh object used in concrete witnesses. -/
def okObj : BObject :=
  ⟨cs "Cube", cs "MESH", (0, 0, 0), cs "XYZ", (0, 0, 0), (1, 1, 1), none, false⟩

/-- A quaternion-mode object used in concrete witnesses. -/
def qObj : BObject :=
  ⟨cs "Ball", cs "MESH", (0, 0, 0), cs "QUATERNION", (0, 0, 0), (1, 1, 1), none, false⟩

/-- An object whose field access raises during formatting and is skipped. -/
def rObj : BObject :=
  ⟨cs "Bad", cs "MESH", (0, 0, 0), cs "XYZ", (0, 0, 0), (1, 1, 1), none, true⟩

/-- An object in Blender's `AXIS_ANGLE` rotation mode — the other
`rotation_mode` value whose representation is not three Euler angles — with
well-behaved formatting; used in concrete counterexamples. -/
def aaObj : BObject :=
  ⟨cs "Spin", cs "MESH", (0, 0, 0), cs "AXIS_ANGLE", (0, 0, 0), (1, 1, 1), none, false⟩

theorem prefixNilIff {α : Type _} {l : List α} : l <+: ([] : List α) ↔ l = [] :=
  List.prefix_nil

theorem prefixAppendLeft {α : Type _} (l₁ l₂ : List α) : l₁ <+: l₁ ++ l₂ :=
  List.prefix_append l₁ l₂

theorem isPrefixOfIff {α : Type _} [BEq α] [LawfulBEq α] {l₁ l₂ : List α} :
    l₁.isPrefixOf l₂ = true ↔ l₁ <+: l₂ :=
  List.isPrefixOf_iff_prefix

theorem reversePrefixIff {α : Type _} {l₁ l₂ : List α} :
    l₁.reverse <+: l₂.reverse ↔ l₁ <:+ l₂ :=
  List.reverse_prefix

theorem infixOfCons {α : Type _} {l₁ l₂ : List α} {a : α} (h : l₁ <:+: l₂) :
    l₁ <:+: a :: l₂ :=
  List.infix_cons h

theorem splitOnFirst_of_isPrefixOf {pat text : Text} (h : pat.isPrefixOf text = true) :
    splitOnFirst pat text = some ([], text.drop pat.length) := by
  cases text with
  | nil =>
    have hp : pat = [] := prefixNilIff.mp (isPrefixOfIff.mp h)
    subst hp
    rfl
  | cons c rest => simp [splitOnFirst, h]

theorem splitOnFirst_eq_none {pat : Text} (hp : pat ≠ []) {text : Text}
    (h : ¬ (pat <:+: text)) : splitOnFirst pat text = none := by
  induction text with
  | nil =>
    have : pat.isEmpty = false := by
      cases pat with
      | nil => exact absurd rfl hp
      | cons a l => rfl
    simp [splitOnFirst, this]
  | cons c rest ih =>
    have h1 : pat.isPrefixOf (c :: rest) = false := by
      cases hb : pat.isPrefixOf (c :: rest) with
      | false => rfl
      | true => exact absurd (isPrefixOfIff.mp hb).isInfix h
    have h2 : ¬ (pat <:+: rest) := fun hin => h (infixOfCons hin)
    simp [splitOnFirst, h1, ih h2]

theorem splitOnFirst_append {pat u : Text} (a : Text)
    (h : ∀ k, k < a.length → pat.isPrefixOf ((a ++ u).drop k) = false) :
    splitOnFirst pat (a ++ u) =
      (splitOnFirst pat u).map fun pr => (a ++ pr.1, pr.2) := by
  induction a with
  | nil =>
    simp only [List.nil_append]
    cases splitOnFirst pat u with
    | none => rfl
    | some pr => rfl
  | cons c a' ih =>
    have h0 : pat.isPrefixOf (c :: (a' ++ u)) = false := by
      have := h 0 (by simp)
      simpa using this
    have hrec := ih (fun k hk => by
      have := h (k + 1) (by simpa using Nat.succ_lt_succ hk)
      simpa using this)
    simp only [List.cons_append, splitOnFirst, List.append_eq, h0]
    rw [hrec]
    cases splitOnFirst pat u with
    | none => rfl
    | some pr => rfl

theorem isPySpace_nl : isPySpace '\n' = true := by decide

theorem isPySpace_tab : isPySpace '\t' = true := by decide

theorem noLeadSpace_dropWhile (l : Text) : noLeadSpace (l.dropWhile isPySpace) = true := by
  induction l with
  | nil => rfl
  | cons c rest ih =>
    by_cases hc : isPySpace c = true
    · simpa [List.dropWhile_cons, hc] using ih
    · simp [List.dropWhile_cons, hc, noLeadSpace]

theorem dropWhile_eq_self_of_noLead {l : Text} (h : noLeadSpace l = true) :
    l.dropWhile isPySpace = l := by
  cases l with
  | nil => rfl
  | cons c rest =>
    have hc : isPySpace c = false := by simpa [noLeadSpace] using h
    simp [List.dropWhile_cons, hc]

theorem strippedB_pyStrip (l : Text) : strippedB (pyStrip l) = true := by
  rw [strippedB, Bool.and_eq_true]
  set d := l.dropWhile isPySpace with hd
  set e := d.reverse.dropWhile isPySpace with he
  have hstrip : pyStrip l = e.reverse := rfl
  constructor
  · rw [hstrip]
    have hpre : e.reverse <+: d := by
      have h0 : e <:+ d.reverse := List.dropWhile_suffix _
      have h1 : e.reverse.reverse <:+ d.reverse := by simpa using h0
      exact List.reverse_suffix.mp h1
    cases hre : e.reverse with
    | nil => rfl
    | cons a t =>
      obtain ⟨t', ht⟩ := hpre
      rw [hre] at ht
      have hld : noLeadSpace d = true := by rw [hd]; exact noLeadSpace_dropWhile l
      rw [← ht, List.cons_append] at hld
      simpa [noLeadSpace] using hld
  · rw [hstrip, List.reverse_reverse, he]
    exact noLeadSpace_dropWhile _

theorem pyStrip_eq_self {l : Text} (h : strippedB l = true) : pyStrip l = l := by
  rw [strippedB, Bool.and_eq_true] at h
  rw [pyStrip, dropWhile_eq_self_of_noLead h.1, dropWhile_eq_self_of_noLead h.2,
    List.reverse_reverse]

theorem pyStrip_idem (l : Text) : pyStrip (pyStrip l) = pyStrip l :=
  pyStrip_eq_self (strippedB_pyStrip l)

theorem pyStrip_append_nl (s : Text) : pyStrip (s ++ ['\n']) = pyStrip s := by
  rw [pyStrip, pyStrip, List.dropWhile_append]
  cases hd : (s.dropWhile isPySpace).isEmpty with
  | true =>
    have h0 : s.dropWhile isPySpace = [] := List.isEmpty_iff.mp hd
    simp [h0, List.dropWhile_cons, isPySpace_nl]
  | false =>
    simp only [Bool.false_eq_true, if_false]
    rw [List.reverse_append]
    simp [List.dropWhile_cons, isPySpace_nl]

theorem tabRepl_no_tab (l : Text) : '\t' ∉ tabRepl l := by
  intro hmem
  rw [tabRepl, List.mem_flatMap] at hmem
  obtain ⟨a, _, hmem2⟩ := hmem
  by_cases ha : a = '\t'
  · rw [if_pos ha] at hmem2
    revert hmem2
    decide
  · rw [if_neg ha] at hmem2
    simp at hmem2
    exact ha hmem2.symm

theorem tabRepl_eq_self {l : Text} (h : '\t' ∉ l) : tabRepl l = l := by
  induction l with
  | nil => rfl
  | cons c rest ih =>
    have hc : ¬ (c = '\t') := fun hc => h (by rw [hc]; exact List.mem_cons_self _ _)
    have hr : '\t' ∉ rest := fun hr => h (List.mem_cons_of_mem _ hr)
    rw [tabRepl, List.flatMap_cons, if_neg hc, ← tabRepl, ih hr, List.singleton_append]

theorem isPySpace_false_ne_tab {c : Char} (h : isPySpace c = false) : ¬ (c = '\t') := by
  intro hc
  rw [hc, isPySpace_tab] at h
  exact Bool.true_eq_false.mp h

theorem tabRepl_cons_of_ne {c : Char} (rest : Text) (hc : ¬ (c = '\t')) :
    tabRepl (c :: rest) = c :: tabRepl rest := by
  rw [tabRepl, List.flatMap_cons, if_neg hc, ← tabRepl, List.singleton_append]

theorem strippedB_tabRepl {l : Text} (h : strippedB l = true) :
    strippedB (tabRepl l) = true := by
  rw [strippedB, Bool.and_eq_true] at h
  obtain ⟨h1, h2⟩ := h
  rw [strippedB, Bool.and_eq_true]
  constructor
  · cases l with
    | nil => rfl
    | cons c rest =>
      have hc : isPySpace c = false := by simpa [noLeadSpace] using h1
      rw [tabRepl_cons_of_ne rest (isPySpace_false_ne_tab hc)]
      simpa [noLeadSpace] using hc
  · cases hrev : l.reverse with
    | nil =>
      have : l = [] := by simpa using congrArg List.reverse hrev
      rw [this]
      rfl
    | cons a r =>
      have hl : l = r.reverse ++ [a] := by
        have := congrArg List.reverse hrev
        simpa using this
      have ha : isPySpace a = false := by
        rw [hrev] at h2
        simpa [noLeadSpace] using h2
      rw [hl, tabRepl, List.flatMap_append, ← tabRepl, ← tabRepl,
        tabRepl_cons_of_ne [] (isPySpace_false_ne_tab ha)]
      have htr : tabRepl ([] : Text) = [] := rfl
      rw [htr, List.reverse_append]
      simpa [noLeadSpace] using ha

theorem splitLines_ne_nil (x : Text) : splitLines x ≠ [] := by
  cases x with
  | nil => simp [splitLines]
  | cons c rest =>
    by_cases hc : c = '\n'
    · simp [splitLines, hc]
    · rw [splitLines, if_neg hc]
      cases splitLines rest <;> simp

theorem joinLines_splitLines (x : Text) : joinLines (splitLines x) = x := by
  induction x with
  | nil => rfl
  | cons c rest ih =>
    by_cases hc : c = '\n'
    · subst hc
      rw [splitLines, if_pos rfl]
      cases hL : splitLines rest with
      | nil => exact absurd hL (splitLines_ne_nil rest)
      | cons l ls =>
        rw [hL] at ih
        simpa [joinLines] using ih
    · rw [splitLines, if_neg hc]
      cases hL : splitLines rest with
      | nil => exact absurd hL (splitLines_ne_nil rest)
      | cons l ls =>
        rw [hL] at ih
        cases ls with
        | nil => simpa [joinLines] using ih
        | cons l2 ls2 => simpa [joinLines] using ih

theorem not_mem_nl_splitLines {x l : Text} (hl : l ∈ splitLines x) : '\n' ∉ l := by
  induction x generalizing l with
  | nil =>
    simp [splitLines] at hl
    simp [hl]
  | cons c rest ih =>
    by_cases hc : c = '\n'
    · rw [splitLines, if_pos hc] at hl
      rcases List.mem_cons.mp hl with rfl | hl
      · simp
      · exact ih hl
    · rw [splitLines, if_neg hc] at hl
      cases hsp : splitLines rest with
      | nil => exact absurd hsp (splitLines_ne_nil rest)
      | cons l0 ls =>
        rw [hsp] at hl
        rcases List.mem_cons.mp hl with rfl | hl
        · intro hmem
          rcases List.mem_cons.mp hmem with he | hmem2
          · exact hc he.symm
          · exact ih (hsp ▸ List.mem_cons_self l0 ls) hmem2
        · exact ih (hsp ▸ List.mem_cons_of_mem l0 hl)

theorem splitLines_no_nl {l : Text} (h : '\n' ∉ l) : splitLines l = [l] := by
  induction l with
  | nil => rfl
  | cons c rest ih =>
    have hc : ¬ (c = '\n') := fun hc => h (by rw [hc]; exact List.mem_cons_self _ _)
    have hr : '\n' ∉ rest := fun hr => h (List.mem_cons_of_mem _ hr)
    rw [splitLines, if_neg hc, ih hr]

theorem splitLines_append_nl {l : Text} (h : '\n' ∉ l) (t : Text) :
    splitLines (l ++ '\n' :: t) = l :: splitLines t := by
  induction l with
  | nil => simp [splitLines]
  | cons c rest ih =>
    have hc : ¬ (c = '\n') := fun hc => h (by rw [hc]; exact List.mem_cons_self _ _)
    have hr : '\n' ∉ rest := fun hr => h (List.mem_cons_of_mem _ hr)
    rw [List.cons_append, splitLines, if_neg hc, ih hr]

theorem splitLines_joinLines {L : List Text} (hne : L ≠ [])
    (h : ∀ l ∈ L, '\n' ∉ l) : splitLines (joinLines L) = L := by
  induction L with
  | nil => exact absurd rfl hne
  | cons l ls ih =>
    cases ls with
    | nil =>
      have := splitLines_no_nl (h l (List.mem_cons_self _ _))
      simpa [joinLines] using this
    | cons l2 ls2 =>
      have hjoin : joinLines (l :: l2 :: ls2) = l ++ '\n' :: joinLines (l2 :: ls2) := rfl
      rw [hjoin, splitLines_append_nl (h l (List.mem_cons_self _ _)),
        ih (by simp) (fun x hx => h x (List.mem_cons_of_mem _ hx))]

theorem splitLines_head {x : Text} {a : Char} (hx : x.head? = some a)
    (ha : ¬ (a = '\n')) : ∃ l ls, splitLines x = (a :: l) :: ls := by
  cases x with
  | nil => cases hx
  | cons c rest =>
    have hca : c = a := by simpa using hx
    subst hca
    rw [splitLines, if_neg ha]
    cases hsp : splitLines rest with
    | nil => exact absurd hsp (splitLines_ne_nil rest)
    | cons l0 ls => exact ⟨l0, ls, rfl⟩

theorem splitLines_getLast {x : Text} {a : Char} (hx : x.getLast? = some a)
    (ha : ¬ (a = '\n')) :
    ∃ ls l, splitLines x = ls ++ [l] ∧ l.getLast? = some a := by
  induction x with
  | nil => cases hx
  | cons c rest ih =>
    cases rest with
    | nil =>
      have hca : c = a := by simpa using hx
      refine ⟨[], [c], ?_, by rw [hca]; rfl⟩
      have hcn : '\n' ∉ [c] := by
        simp only [List.mem_singleton]
        intro he
        exact ha (hca.symm.trans he.symm)
      rw [splitLines_no_nl hcn]
      rfl
    | cons c2 rest2 =>
      have hx2 : (c2 :: rest2).getLast? = some a := by
        simpa [List.getLast?_cons_cons] using hx
      obtain ⟨ls, l, hsp, hl⟩ := ih hx2
      have hlne : l ≠ [] := by
        intro h0
        rw [h0] at hl
        cases hl
      by_cases hc : c = '\n'
      · refine ⟨[] :: ls, l, ?_, hl⟩
        rw [splitLines, if_pos hc, hsp]
        rfl
      · rw [splitLines, if_neg hc]
        cases ls with
        | nil =>
          rw [hsp]
          refine ⟨[], c :: l, rfl, ?_⟩
          cases l with
          | nil => exact absurd rfl hlne
          | cons b l2 => simpa [List.getLast?_cons_cons] using hl
        | cons l0 ls0 =>
          rw [hsp]
          exact ⟨(c :: l0) :: ls0, l, rfl, hl⟩

theorem joinLines_head {a : Char} (l : Text) (ls : List Text) :
    (joinLines ((a :: l) :: ls)).head? = some a := by
  cases ls with
  | nil => rfl
  | cons l2 ls2 => rfl

theorem joinLines_append_ne_nil {l : Text} (hl : l ≠ []) (ls : List Text) :
    joinLines (ls ++ [l]) ≠ [] := by
  cases ls with
  | nil => simpa [joinLines] using hl
  | cons l0 ls0 =>
    cases hsh : ls0 ++ [l] with
    | nil => exact absurd hsh (by simp)
    | cons y ys =>
      have : joinLines ((l0 :: ls0) ++ [l]) = l0 ++ '\n' :: joinLines (y :: ys) := by
        rw [List.cons_append, hsh]
        rfl
      rw [this]
      simp

theorem getLast?_cons_of_ne_nil {a : Char} {l : Text} (hl : l ≠ []) :
    (a :: l).getLast? = l.getLast? := by
  cases l with
  | nil => exact absurd rfl hl
  | cons b l2 => exact List.getLast?_cons_cons

theorem joinLines_getLast {l : Text} (hl : l ≠ []) (ls : List Text) :
    (joinLines (ls ++ [l])).getLast? = l.getLast? := by
  induction ls with
  | nil => simp [joinLines]
  | cons l0 ls0 ih =>
    cases hsh : ls0 ++ [l] with
    | nil => exact absurd hsh (by simp)
    | cons y ys =>
      have hstep : joinLines ((l0 :: ls0) ++ [l]) = l0 ++ '\n' :: joinLines (y :: ys) := by
        rw [List.cons_append, hsh]
        rfl
      have hjne : joinLines (y :: ys) ≠ [] := by
        rw [← hsh]
        exact joinLines_append_ne_nil hl ls0
      rw [hstep, List.getLast?_append, getLast?_cons_of_ne_nil hjne, ← hsh, ih]
      cases hgl : l.getLast? with
      | none =>
        have hsome := List.getLast?_isSome.mpr hl
        rw [hgl] at hsome
        cases hsome
      | some b => rfl

theorem wsOnlyBlank_idem (l : Text) : wsOnlyBlank (wsOnlyBlank l) = wsOnlyBlank l := by
  by_cases h : l.all isIndentChar = true
  · simp [wsOnlyBlank, h]
  · simp [wsOnlyBlank, h]

theorem mem_wsOnlyBlank {c : Char} {l : Text} (h : c ∈ wsOnlyBlank l) : c ∈ l := by
  by_cases hb : l.all isIndentChar = true
  · rw [wsOnlyBlank, if_pos hb] at h
    cases h
  · rwa [wsOnlyBlank, if_neg hb] at h

theorem isIndent_imp_isPySpace {c : Char} (h : isIndentChar c = true) :
    isPySpace c = true := by
  rw [isIndentChar, Bool.or_eq_true, decide_eq_true_eq, decide_eq_true_eq] at h
  rcases h with h | h <;> (rw [h]; decide)

theorem isPySpace_false_indent {c : Char} (h : isPySpace c = false) :
    isIndentChar c = false := by
  cases hi : isIndentChar c with
  | false => rfl
  | true =>
    rw [isIndent_imp_isPySpace hi] at h
    cases h

theorem wsOnlyBlank_keep_head {c : Char} {l : Text} (hc : isIndentChar c = false) :
    wsOnlyBlank (c :: l) = c :: l := by
  rw [wsOnlyBlank, if_neg]
  simp [List.all_cons, hc]

theorem wsOnlyBlank_keep_of_mem {l : Text} {a : Char} (hmem : a ∈ l)
    (ha : isIndentChar a = false) : wsOnlyBlank l = l := by
  rw [wsOnlyBlank, if_neg]
  intro hall
  have hx := List.all_eq_true.mp hall a hmem
  rw [ha] at hx
  cases hx

theorem commonPrefix_nil (x : Text) : commonPrefix [] x = [] := by
  cases x <;> rfl

theorem foldl_commonPrefix_nil (L : List Text) : L.foldl commonPrefix [] = [] := by
  induction L with
  | nil => rfl
  | cons l ls ih => rw [List.foldl_cons, commonPrefix_nil, ih]

theorem dedentLine_nil_margin (l : Text) : dedentLine [] l = l := by
  have h0 : (([] : Text)).isPrefixOf l = true := isPrefixOfIff.mpr List.nil_prefix
  rw [dedentLine, if_pos h0, List.length_nil, List.drop_zero]

theorem map_dedentLine_nil (L : List Text) : L.map (dedentLine []) = L := by
  induction L with
  | nil => rfl
  | cons x xs ih => rw [List.map_cons, dedentLine_nil_margin, ih]

theorem dedentMargin_nil_of_head {l : Text} {a : Char} (ha : isIndentChar a = false)
    (ls : List Text) : dedentMargin ((a :: l) :: ls) = [] := by
  have hsc : (((a :: l) :: ls).filter (fun x => !x.isEmpty)).map
      (fun x => x.takeWhile isIndentChar)
      = [] :: ((ls.filter (fun x => !x.isEmpty)).map (fun x => x.takeWhile isIndentChar)) := by
    simp [List.filter_cons, List.takeWhile_cons, ha]
  rw [dedentMargin, hsc]
  exact foldl_commonPrefix_nil _

theorem mem_of_getLast?_eq {l : Text} {b : Char} (h : l.getLast? = some b) : b ∈ l := by
  have h1 : l.reverse.head? = some b := by rw [List.head?_reverse]; exact h
  cases hr : l.reverse with
  | nil =>
    rw [hr] at h1
    cases h1
  | cons c r =>
    rw [hr] at h1
    have hcb : c = b := by simpa using h1
    have hmem : b ∈ l.reverse := by
      rw [hr, ← hcb]
      exact List.mem_cons_self _ _
    simpa using hmem

theorem noLeadSpace_of_head {x : Text} {c : Char} (h : x.head? = some c)
    (hc : isPySpace c = false) : noLeadSpace x = true := by
  cases x with
  | nil => rfl
  | cons a rest =>
    have hac : a = c := by simpa using h
    rw [noLeadSpace, hac, hc]
    rfl

theorem dedent_of_stripped {y : Text} (hstr : strippedB y = true) (hy : y ≠ []) :
    dedent y = joinLines ((splitLines y).map wsOnlyBlank) := by
  rw [strippedB, Bool.and_eq_true] at hstr
  obtain ⟨h1, h2⟩ := hstr
  cases y with
  | nil => exact absurd rfl hy
  | cons a rest =>
    have hna : isPySpace a = false := by simpa [noLeadSpace] using h1
    have hnn : ¬ (a = '\n') := by
      intro h
      rw [h, isPySpace_nl] at hna
      cases hna
    have hind : isIndentChar a = false := isPySpace_false_indent hna
    obtain ⟨l, ls, hsp⟩ := @splitLines_head (a :: rest) a rfl hnn
    simp only [dedent]
    rw [hsp, List.map_cons, wsOnlyBlank_keep_head hind, dedentMargin_nil_of_head hind,
      map_dedentLine_nil]

theorem mem_joinLines_of_mem {c : Char} {l : Text} {L : List Text}
    (hl : l ∈ L) (hc : c ∈ l) : c ∈ joinLines L := by
  induction L with
  | nil => cases hl
  | cons l0 ls ih =>
    cases ls with
    | nil =>
      have : l = l0 := by simpa using hl
      rw [← this]
      exact hc
    | cons l2 ls2 =>
      have hj : joinLines (l0 :: l2 :: ls2) = l0 ++ '\n' :: joinLines (l2 :: ls2) := rfl
      rw [hj]
      rcases List.mem_cons.mp hl with rfl | hl2
      · exact List.mem_append.mpr (Or.inl hc)
      · exact List.mem_append.mpr (Or.inr (List.mem_cons_of_mem _ (ih hl2)))

theorem mem_joinLines {c : Char} {L : List Text} (h : c ∈ joinLines L) :
    (∃ l ∈ L, c ∈ l) ∨ c = '\n' := by
  induction L with
  | nil => exact absurd h (List.not_mem_nil c)
  | cons l ls ih =>
    cases ls with
    | nil => exact Or.inl ⟨l, List.mem_cons_self _ _, h⟩
    | cons l2 ls2 =>
      have hj : joinLines (l :: l2 :: ls2) = l ++ '\n' :: joinLines (l2 :: ls2) := rfl
      rw [hj] at h
      rcases List.mem_append.mp h with h | h
      · exact Or.inl ⟨l, List.mem_cons_self _ _, h⟩
      · rcases List.mem_cons.mp h with rfl | h
        · exact Or.inr rfl
        · rcases ih h with ⟨l', hl', hc'⟩ | rfl
          · exact Or.inl ⟨l', List.mem_cons_of_mem _ hl', hc'⟩
          · exact Or.inr rfl

theorem mem_of_splitLines {y l : Text} (hl : l ∈ splitLines y) {c : Char}
    (hc : c ∈ l) : c ∈ y := by
  rw [← joinLines_splitLines y]
  exact mem_joinLines_of_mem hl hc

theorem mem_dedentLine {c : Char} {m l : Text} (h : c ∈ dedentLine m l) : c ∈ l := by
  rw [dedentLine] at h
  by_cases hp : m.isPrefixOf l = true
  · rw [if_pos hp] at h
    exact List.drop_subset _ _ h
  · rwa [if_neg hp] at h

theorem mem_dedent {c : Char} {y : Text} (h : c ∈ dedent y) : c ∈ y ∨ c = '\n' := by
  simp only [dedent] at h
  rcases mem_joinLines h with ⟨l, hl, hc⟩ | rfl
  · rcases List.mem_map.mp hl with ⟨l1, hl1, rfl⟩
    have hc1 : c ∈ l1 := mem_dedentLine hc
    rcases List.mem_map.mp hl1 with ⟨l0, hl0, rfl⟩
    exact Or.inl (mem_of_splitLines hl0 (mem_wsOnlyBlank hc1))
  · exact Or.inr rfl

theorem splitLines_dedent_of_stripped {y : Text} (hstr : strippedB y = true)
    (hy : y ≠ []) : splitLines (dedent y) = (splitLines y).map wsOnlyBlank := by
  rw [dedent_of_stripped hstr hy]
  apply splitLines_joinLines
  · intro h
    exact splitLines_ne_nil y (List.map_eq_nil_iff.mp h)
  · intro l hl
    rcases List.mem_map.mp hl with ⟨l0, hl0, rfl⟩
    intro hmem
    exact not_mem_nl_splitLines hl0 (mem_wsOnlyBlank hmem)

theorem strippedB_dedent {y : Text} (hstr : strippedB y = true) (hy : y ≠ []) :
    strippedB (dedent y) = true := by
  have hstr' := hstr
  rw [strippedB, Bool.and_eq_true] at hstr'
  obtain ⟨h1, h2⟩ := hstr'
  rw [strippedB, Bool.and_eq_true]
  cases y with
  | nil => exact absurd rfl hy
  | cons a rest =>
    have hna : isPySpace a = false := by simpa [noLeadSpace] using h1
    have hnn : ¬ (a = '\n') := by
      intro h
      rw [h, isPySpace_nl] at hna
      cases hna
    have hind : isIndentChar a = false := isPySpace_false_indent hna
    obtain ⟨b, hb⟩ : ∃ b, (a :: rest).getLast? = some b := by
      cases hgl : (a :: rest).getLast? with
      | none =>
        have := List.getLast?_isSome.mpr (List.cons_ne_nil a rest)
        rw [hgl] at this
        cases this
      | some b => exact ⟨b, rfl⟩
    have hnb : isPySpace b = false := by
      have hrev : (a :: rest).reverse.head? = some b := by
        rw [List.head?_reverse]
        exact hb
      cases hr : (a :: rest).reverse with
      | nil =>
        rw [hr] at hrev
        cases hrev
      | cons c r =>
        rw [hr] at hrev h2
        have : c = b := by simpa using hrev
        rw [this] at h2
        simpa [noLeadSpace] using h2
    have hbn : ¬ (b = '\n') := by
      intro h
      rw [h, isPySpace_nl] at hnb
      cases hnb
    have hbind : isIndentChar b = false := isPySpace_false_indent hnb
    obtain ⟨ls, l, hsp, hl⟩ := splitLines_getLast hb hbn
    have hlne : l ≠ [] := by
      intro h0
      rw [h0] at hl
      cases hl
    have hwl : wsOnlyBlank l = l :=
      wsOnlyBlank_keep_of_mem (mem_of_getLast?_eq hl) hbind
    obtain ⟨l1, ls1, hsp1⟩ := @splitLines_head (a :: rest) a rfl hnn
    have hded := dedent_of_stripped hstr hy
    constructor
    · rw [hded, hsp1, List.map_cons, wsOnlyBlank_keep_head hind]
      exact noLeadSpace_of_head (joinLines_head _ _) hna
    · rw [hded, hsp, List.map_append]
      have hmap1 : List.map wsOnlyBlank [l] = [l] := by rw [List.map_cons, hwl]; rfl
      rw [hmap1]
      have hgl : (joinLines (List.map wsOnlyBlank ls ++ [l])).getLast? = l.getLast? :=
        joinLines_getLast hlne _
      apply noLeadSpace_of_head _ hnb
      rw [List.head?_reverse, hgl, hl]

theorem dedent_dedent {y : Text} (hstr : strippedB y = true) (hy : y ≠ [])
    (hd : dedent y ≠ []) : dedent (dedent y) = dedent y := by
  have hstr2 := strippedB_dedent hstr hy
  rw [dedent_of_stripped hstr2 hd, splitLines_dedent_of_stripped hstr hy,
    List.map_map]
  have hmm : ((splitLines y).map wsOnlyBlank).map wsOnlyBlank
      = (splitLines y).map wsOnlyBlank := by
    rw [List.map_map]
    exact List.map_congr_left fun x _ => wsOnlyBlank_idem x
  rw [← List.map_map, hmm, ← dedent_of_stripped hstr hy]

theorem suffix_drop_form {α : Type _} {l w : List α} (h : l <:+ w) :
    ∃ k, k ≤ w.length ∧ l = w.drop k := by
  obtain ⟨t, ht⟩ := h
  refine ⟨t.length, ?_, ?_⟩
  · rw [← ht, List.length_append]
    omega
  · rw [← ht, List.drop_left]

theorem infix_append_cases {α : Type _} {l a b : List α} (h : l <:+: a ++ b) :
    l <:+: a ∨ l <:+: b ∨
      ∃ l₁ l₂, l = l₁ ++ l₂ ∧ l₁ ≠ [] ∧ l₂ ≠ [] ∧ l₁ <:+ a ∧ l₂ <+: b := by
  obtain ⟨u, v, huv⟩ := h
  rw [List.append_assoc] at huv
  rcases List.append_eq_append_iff.mp huv with ⟨w, hw1, hw2⟩ | ⟨w, hw1, hw2⟩
  · rcases List.append_eq_append_iff.mp hw2 with ⟨x, hx1, hx2⟩ | ⟨y, hy1, hy2⟩
    · refine Or.inl ⟨u, x, ?_⟩
      rw [hw1, hx1, List.append_assoc]
    · cases hwn : w with
      | nil =>
        rw [hwn, List.nil_append] at hy1
        refine Or.inr (Or.inl ?_)
        refine ⟨[], v, ?_⟩
        rw [List.nil_append, hy2, ← hy1]
      | cons w0 ws =>
        cases hyn : y with
        | nil =>
          rw [hyn, List.append_nil] at hy1
          refine Or.inl ?_
          refine ⟨u, [], ?_⟩
          rw [List.append_nil, hw1, hy1]
        | cons y0 ys =>
          refine Or.inr (Or.inr ⟨w, y, hy1, ?_, ?_, ⟨u, hw1.symm⟩, ⟨v, hy2.symm⟩⟩)
          · rw [hwn]; exact List.cons_ne_nil _ _
          · rw [hyn]; exact List.cons_ne_nil _ _
  · refine Or.inr (Or.inl ⟨w, v, ?_⟩)
    rw [hw2, List.append_assoc]

theorem no_overlap {w pat : Text} (hck : overlapCheck w pat = true) {l₁ l₂ : Text}
    (h1 : l₁ ≠ []) (h2 : l₁ <:+ w) (h3 : pat = l₁ ++ l₂) : False := by
  obtain ⟨k, hk, hdrop⟩ := suffix_drop_form h2
  have hall := List.all_eq_true.mp hck k (by rw [List.mem_range]; omega)
  rw [Bool.or_eq_true] at hall
  rcases hall with hemp | hnpre
  · rw [← hdrop] at hemp
    exact h1 (List.isEmpty_iff.mp hemp)
  · have hpp : l₁.isPrefixOf pat = true := isPrefixOfIff.mpr ⟨l₂, h3.symm⟩
    rw [← hdrop, hpp] at hnpre
    cases hnpre

theorem fenceClose_eq : fenceClose = [bq, bq, bq] := by decide

theorem close_not_prefix_mid {s : Text} (hs : containsSub fenceClose s = false)
    (k : ℕ) (t : Text) :
    fenceClose.isPrefixOf (s.drop k ++ '\n' :: t) = false := by
  have hsinf : ¬ (fenceClose <:+: s) := of_decide_eq_false hs
  cases hpre : fenceClose.isPrefixOf (s.drop k ++ '\n' :: t) with
  | false => rfl
  | true =>
    exfalso
    have hp : fenceClose <+: s.drop k ++ '\n' :: t := isPrefixOfIff.mp hpre
    have hsuf : s.drop k <:+ s := List.drop_suffix k s
    rw [fenceClose_eq] at hp
    cases hd : s.drop k with
    | nil =>
      rw [hd, List.nil_append] at hp
      exact absurd (List.cons_prefix_cons.mp hp).1 (by decide)
    | cons x d1 =>
      rw [hd, List.cons_append] at hp
      obtain ⟨hx, hp2⟩ := List.cons_prefix_cons.mp hp
      cases d1 with
      | nil =>
        rw [List.nil_append] at hp2
        exact absurd (List.cons_prefix_cons.mp hp2).1 (by decide)
      | cons x2 d2 =>
        rw [List.cons_append] at hp2
        obtain ⟨hx2, hp3⟩ := List.cons_prefix_cons.mp hp2
        cases d2 with
        | nil =>
          rw [List.nil_append] at hp3
          exact absurd (List.cons_prefix_cons.mp hp3).1 (by decide)
        | cons x3 d3 =>
          rw [List.cons_append] at hp3
          obtain ⟨hx3, _⟩ := List.cons_prefix_cons.mp hp3
          apply hsinf
          have hpre3 : fenceClose <+: s.drop k := by
            rw [hd, fenceClose_eq, ← hx, ← hx2, ← hx3]
            exact ⟨d3, rfl⟩
          exact hpre3.isInfix.trans hsuf.isInfix

theorem splitOnFirst_close_end {s : Text} (hs : containsSub fenceClose s = false) :
    splitOnFirst fenceClose (s ++ '\n' :: fenceClose) = some (s ++ ['\n'], []) := by
  have heq : s ++ '\n' :: fenceClose = (s ++ ['\n']) ++ fenceClose := by simp
  have hside : ∀ k, k < (s ++ ['\n']).length →
      fenceClose.isPrefixOf (((s ++ ['\n']) ++ fenceClose).drop k) = false := by
    intro k hk
    have hk2 : k ≤ s.length := by
      rw [List.length_append] at hk
      simp at hk
      omega
    have hdrop : ((s ++ ['\n']) ++ fenceClose).drop k = s.drop k ++ '\n' :: fenceClose := by
      rw [List.append_assoc, List.drop_append_of_le_length hk2]
      rfl
    rw [hdrop]
    exact close_not_prefix_mid hs k fenceClose
  rw [heq, splitOnFirst_append (s ++ ['\n']) hside]
  have hcc : splitOnFirst fenceClose fenceClose = some ([], []) := by decide
  rw [hcc]
  simp

theorem fenceExtract_wrap {opener s : Text} (hs : containsSub fenceClose s = false) :
    fenceExtract opener (wrapFence opener s) = some (s ++ ['\n']) := by
  have hassoc : wrapFence opener s = opener ++ (s ++ '\n' :: fenceClose) := by
    rw [wrapFence, List.append_assoc]
  have h1 : splitOnFirst opener (opener ++ (s ++ '\n' :: fenceClose))
      = some ([], s ++ '\n' :: fenceClose) := by
    rw [splitOnFirst_of_isPrefixOf (isPrefixOfIff.mpr (prefixAppendLeft opener _)),
      List.drop_left]
  rw [hassoc] at *
  simp only [fenceExtract, h1, splitOnFirst_close_end hs]

theorem pat_not_infix_wrap {s pat w : Text} (hs : containsSub fenceClose s = false)
    (hnw : ¬ (pat <:+: w)) (hov : overlapCheck w pat = true)
    (hpat : fenceClose <+: pat) (hlen : 4 < pat.length) :
    ¬ (pat <:+: w ++ (s ++ '\n' :: fenceClose)) := by
  intro h
  have hsinf : ¬ (fenceClose <:+: s) := of_decide_eq_false hs
  rcases infix_append_cases h with h | h | ⟨l₁, l₂, h3, h1, h2, hsufw, _⟩
  · exact hnw h
  · rcases infix_append_cases (l := pat) (a := s) (b := '\n' :: fenceClose) h with
      h | h | ⟨m₁, m₂, h3, h1, h2, hsufs, hpre⟩
    · exact hsinf (hpat.isInfix.trans h)
    · have hle := h.length_le
      have hcl : ('\n' :: fenceClose).length = 4 := by decide
      omega
    · rw [fenceClose_eq] at hpat
      cases m₁ with
      | nil => exact h1 rfl
      | cons x d1 =>
        rw [h3, List.cons_append] at hpat
        obtain ⟨hx, hp2⟩ := List.cons_prefix_cons.mp hpat
        cases d1 with
        | nil =>
          rw [List.nil_append] at hp2
          obtain ⟨t2, ht2⟩ := hpre
          cases m₂ with
          | nil => exact h2 rfl
          | cons y e =>
            have hy := (List.cons_prefix_cons.mp hp2).1
            have hyn : y = '\n' := by
              have hh := congrArg List.head? ht2
              simpa using hh
            rw [← hy] at hyn
            exact absurd hyn (by decide)
        | cons x2 d2 =>
          rw [List.cons_append] at hp2
          obtain ⟨hx2, hp3⟩ := List.cons_prefix_cons.mp hp2
          cases d2 with
          | nil =>
            rw [List.nil_append] at hp3
            obtain ⟨t2, ht2⟩ := hpre
            cases m₂ with
            | nil => exact h2 rfl
            | cons y e =>
              have hy := (List.cons_prefix_cons.mp hp3).1
              have hyn : y = '\n' := by
                have hh := congrArg List.head? ht2
                simpa using hh
              rw [← hy] at hyn
              exact absurd hyn (by decide)
          | cons x3 d3 =>
            rw [List.cons_append] at hp3
            obtain ⟨hx3, _⟩ := List.cons_prefix_cons.mp hp3
            apply hsinf
            have hpre3 : fenceClose <+: x :: x2 :: x3 :: d3 := by
              rw [fenceClose_eq, ← hx, ← hx2, ← hx3]
              exact ⟨d3, rfl⟩
            exact hpre3.isInfix.trans hsufs.isInfix
  · exact no_overlap hov h1 hsufw h3

theorem fenceExtract_other_none {s pat w : Text} (hs : containsSub fenceClose s = false)
    (hpne : pat ≠ []) (hnw : ¬ (pat <:+: w)) (hov : overlapCheck w pat = true)
    (hpat : fenceClose <+: pat) (hlen : 4 < pat.length) :
    fenceExtract pat (wrapFence w s) = none := by
  have hassoc : wrapFence w s = w ++ (s ++ '\n' :: fenceClose) := by
    rw [wrapFence, List.append_assoc]
  have hnone : splitOnFirst pat (w ++ (s ++ '\n' :: fenceClose)) = none :=
    splitOnFirst_eq_none hpne (pat_not_infix_wrap hs hnw hov hpat hlen)
  rw [hassoc]
  simp only [fenceExtract, hnone]

theorem extractFenced_wrap1 {s : Text} (hs : containsSub fenceClose s = false) :
    extractFenced (wrapFence (cs "```python\n") s) = some (pyStrip s) := by
  simp only [extractFenced, fenceExtract_wrap hs, pyStrip_append_nl]

theorem extractFenced_wrap2 {s : Text} (hs : containsSub fenceClose s = false) :
    extractFenced (wrapFence (cs "```py\n") s) = some (pyStrip s) := by
  have h1 : fenceExtract (cs "```python\n") (wrapFence (cs "```py\n") s) = none :=
    fenceExtract_other_none hs (by decide) (by decide) (by decide) (by decide) (by decide)
  simp only [extractFenced, h1, fenceExtract_wrap hs, pyStrip_append_nl]

theorem extractFenced_wrap3 {s : Text} (hs : containsSub fenceClose s = false) :
    extractFenced (wrapFence (cs "```\n") s) = some (pyStrip s) := by
  have h1 : fenceExtract (cs "```python\n") (wrapFence (cs "```\n") s) = none :=
    fenceExtract_other_none hs (by decide) (by decide) (by decide) (by decide) (by decide)
  have h2 : fenceExtract (cs "```py\n") (wrapFence (cs "```\n") s) = none :=
    fenceExtract_other_none hs (by decide) (by decide) (by decide) (by decide) (by decide)
  simp only [extractFenced, h1, h2, fenceExtract_wrap hs, pyStrip_append_nl]

theorem extractCode_of_fenced {text c : Text} (hfen : extractFenced text = some c)
    (hne : c ≠ []) : extractCode text = some c := by
  have hemp : c.isEmpty = false := by
    cases h : c.isEmpty with
    | false => rfl
    | true => exact absurd (List.isEmpty_iff.mp h) hne
  simp only [extractCode, hfen, hemp]
  rfl

theorem extractCode_fallback {text : Text} (hfen : extractFenced text = none)
    (hmark : (containsSub (cs "import bpy") text || containsSub (cs "bpy.") text) = true) :
    extractCode text = some (pyStrip text) := by
  simp only [extractCode, hfen, bpyFallback, hmark]
  rfl

theorem extractCode_empty_fence {text : Text} (hfen : extractFenced text = some [])
    (hmark : (containsSub (cs "import bpy") text || containsSub (cs "bpy.") text) = true) :
    extractCode text = some (pyStrip text) := by
  simp only [extractCode, hfen, List.isEmpty_nil, if_true, bpyFallback, hmark]

theorem bpyFallback_pyStrip {text c : Text} (h : bpyFallback text = some c) :
    c = pyStrip text := by
  rw [bpyFallback] at h
  cases hb : (containsSub (cs "import bpy") text || containsSub (cs "bpy.") text) with
  | true =>
    rw [hb] at h
    simp at h
    exact h.symm
  | false =>
    rw [hb] at h
    simp at h

theorem extractFenced_pyStrip {text c : Text} (h : extractFenced text = some c) :
    ∃ b, c = pyStrip b := by
  rw [extractFenced] at h
  cases h1 : fenceExtract (cs "```python\n") text with
  | some b1 =>
    rw [h1] at h
    exact ⟨b1, (Option.some.inj h).symm⟩
  | none =>
    rw [h1] at h
    cases h2 : fenceExtract (cs "```py\n") text with
    | some b2 =>
      rw [h2] at h
      exact ⟨b2, (Option.some.inj h).symm⟩
    | none =>
      rw [h2] at h
      cases h3 : fenceExtract (cs "```\n") text with
      | some b3 =>
        rw [h3] at h
        exact ⟨b3, (Option.some.inj h).symm⟩
      | none =>
        rw [h3] at h
        cases h

theorem extractCode_pyStrip {text c : Text} (h : extractCode text = some c) :
    ∃ b, c = pyStrip b := by
  cases hf : extractFenced text with
  | none =>
    rw [extractCode, hf] at h
    exact ⟨text, bpyFallback_pyStrip h⟩
  | some body =>
    simp only [extractCode, hf] at h
    cases hemp : body.isEmpty with
    | true =>
      simp only [hemp, if_true] at h
      exact ⟨text, bpyFallback_pyStrip h⟩
    | false =>
      simp only [hemp, Bool.false_eq_true, if_false] at h
      obtain ⟨b, hb⟩ := extractFenced_pyStrip hf
      refine ⟨b, ?_⟩
      rw [← Option.some.inj h]
      exact hb

theorem preprocess_success {parses : Text → Bool} {text s : Text}
    (h : preprocess_code parses text = s) (hne : s ≠ []) :
    ∃ c, extractCode text = some c ∧ s = dedent (tabRepl c) ∧
      denyListed s = false ∧ parses s = true := by
  rw [preprocess_code] at h
  cases hx : extractCode text with
  | none =>
    rw [hx] at h
    exact absurd h.symm hne
  | some c =>
    rw [hx] at h
    simp only at h
    cases hd : denyListed (dedent (tabRepl c)) with
    | true =>
      rw [hd] at h
      simp at h
      exact absurd h hne
    | false =>
      rw [hd] at h
      simp only [Bool.false_eq_true, if_false] at h
      cases hp : parses (dedent (tabRepl c)) with
      | false =>
        rw [hp] at h
        simp at h
        exact absurd h hne
      | true =>
        rw [hp] at h
        simp only [if_true] at h
        refine ⟨c, rfl, h.symm, ?_, ?_⟩
        · rw [h] at hd
          exact hd
        · rw [h] at hp
          exact hp

theorem dedent_nil : dedent ([] : Text) = [] := rfl

theorem denyListed_of_import {code lib : Text} (hmem : lib ∈ denyLibs)
    (h : (cs "import " ++ lib) <:+: code ∨ (cs "from " ++ lib) <:+: code) :
    denyListed code = true := by
  rw [denyListed, List.any_eq_true]
  refine ⟨lib, hmem, ?_⟩
  rw [Bool.or_eq_true, containsSub, containsSub, decide_eq_true_eq, decide_eq_true_eq]
  exact h

theorem is_cloud_model_iff (m : Text) :
    is_cloud_model m = true ↔ (m ∈ CLOUD_MODELS ∨ ∃ p, m = p ++ cs "-cloud") := by
  rw [is_cloud_model, Bool.or_eq_true]
  constructor
  · rintro (hc | hc)
    · left
      simpa using hc
    · right
      obtain ⟨t, ht⟩ := List.isSuffixOf_iff_suffix.mp hc
      exact ⟨t, ht.symm⟩
  · rintro (hc | ⟨p, hp⟩)
    · left
      simpa using hc
    · right
      exact List.isSuffixOf_iff_suffix.mpr ⟨p, hp.symm⟩

theorem filterMap_objLine_nil {fmt : ℚ → Text} {l : List BObject}
    (h : ∀ o ∈ l, o.formatRaises = true) : l.filterMap (objLine fmt) = [] := by
  induction l with
  | nil => rfl
  | cons o rest ih =>
    have ho := h o (List.mem_cons_self _ _)
    rw [List.filterMap_cons]
    simp [objLine, ho, ih (fun x hx => h x (List.mem_cons_of_mem _ hx))]

theorem filterMap_objLine_map {fmt : ℚ → Text} {l : List BObject}
    (h : ∀ o ∈ l, o.formatRaises = false) :
    l.filterMap (objLine fmt) = l.map (formatLine fmt) := by
  induction l with
  | nil => rfl
  | cons o rest ih =>
    have ho := h o (List.mem_cons_self _ _)
    rw [List.filterMap_cons, List.map_cons]
    simp [objLine, ho, ih (fun x hx => h x (List.mem_cons_of_mem _ hx))]

/-- C1: whenever the extraction phase of the sanitization gate produces a
code candidate (fenced or via the unfenced bpy fallback) whose normalized
form contains `import shutil`, `from subprocess import X` for any `X`,
`import ctypes` or `import socket`, `preprocess_code` rejects and returns
the empty string; the denylisted code is never returned as validated
output. -/
theorem c1_denylist_rejects (parses : Text → Bool) (text c : Text)
    (hx : extractCode text = some c)
    (hbad : cs "import shutil" <:+: dedent (tabRepl c) ∨
      (∃ X, cs "from subprocess import " ++ X <:+: dedent (tabRepl c)) ∨
      cs "import ctypes" <:+: dedent (tabRepl c) ∨
      cs "import socket" <:+: dedent (tabRepl c)) :
    preprocess_code parses text = [] := by
  have hdeny : denyListed (dedent (tabRepl c)) = true := by
    rcases hbad with h | ⟨X, h⟩ | h | h
    · refine @denyListed_of_import _ (cs "shutil") (by decide) (Or.inl ?_)
      have hconc : cs "import " ++ cs "shutil" = cs "import shutil" := by decide
      rw [hconc]
      exact h
    · refine @denyListed_of_import _ (cs "subprocess") (by decide) (Or.inr ?_)
      have h1 : cs "from " ++ cs "subprocess" <+: cs "from subprocess import " ++ X := by
        refine ⟨cs " import " ++ X, ?_⟩
        rw [← List.append_assoc]
        have hconc : (cs "from " ++ cs "subprocess") ++ cs " import "
            = cs "from subprocess import " := by decide
        rw [hconc]
      exact h1.isInfix.trans h
    · refine @denyListed_of_import _ (cs "ctypes") (by decide) (Or.inl ?_)
      have hconc : cs "import " ++ cs "ctypes" = cs "import ctypes" := by decide
      rw [hconc]
      exact h
    · refine @denyListed_of_import _ (cs "socket") (by decide) (Or.inl ?_)
      have hconc : cs "import " ++ cs "socket" = cs "import socket" := by decide
      rw [hconc]
      exact h
  simp only [preprocess_code, hx, hdeny, if_true]

/-- C1 witness: a fenced `import shutil` snippet is rejected. -/
theorem c1_witness :
    preprocess_code (fun _ => true) (cs "```python\nimport shutil\n```") = [] :=
  c1_denylist_rejects (fun _ => true) (cs "```python\nimport shutil\n```")
    (cs "import shutil") (by decide) (Or.inl (by decide))

/-- C2 (amended): whenever the sanitization gate rejects the adapter output,
the CODE worker leaves the execution queue unchanged, writes the fixed
terminal status `Error: No valid code generated. Check console for
details.`, and does not register the drain timer.  An adapter failure
produces an `Error: ...` string rather than an exception, and the gate
rejects that string — so nothing is enqueued and the same fixed status,
which does not embed the adapter's error text, is written — whenever the
error payload carries no fence match and no bpy marker.  (An adapter error
that happens to contain a bpy marker and to parse is treated as code and
enqueued, as the counterexample shows.) -/
theorem c2_reject_enqueues_nothing (parses : Text → Bool) (output_text e : Text)
    (q : List Text) (hrej : preprocess_code parses output_text = []) :
    ai_code_worker_thread parses output_text q = ⟨q, noValidCodeMsg, false⟩ ∧
    ((containsSub (cs "import bpy") (openai_agent (Except.error e))
        || containsSub (cs "bpy.") (openai_agent (Except.error e))) = false →
      extractFenced (openai_agent (Except.error e)) = none →
      ai_code_worker_thread parses (openai_agent (Except.error e)) q
        = ⟨q, noValidCodeMsg, false⟩) := by
  constructor
  · simp only [ai_code_worker_thread, hrej, List.isEmpty_nil, if_true]
  · intro hmark hnof
    have hx : extractCode (openai_agent (Except.error e)) = none := by
      simp only [extractCode, hnof, bpyFallback, hmark, Bool.false_eq_true, if_false]
    have hrej2 : preprocess_code parses (openai_agent (Except.error e)) = [] := by
      simp only [preprocess_code, hx]
    simp only [ai_code_worker_thread, hrej2, List.isEmpty_nil, if_true]

/-- C2 counterexample: on an adapter failure with error text `boom` the
worker's status does not contain the adapter's error text, refuting the
claim's last conjunct; and on an adapter failure whose error text `bpy.x`
happens to contain a bpy marker and to parse (real `ast.parse` accepts
`Error: bpy.x` as an annotated assignment, matching the oracle used here)
the error string itself is enqueued, refuting the claim's
nothing-is-enqueued conjunct as well. -/
theorem c2_counterexample :
    ((ai_code_worker_thread (fun _ => true)
        (openai_agent (Except.error (cs "boom"))) []).queue = [] ∧
      containsSub (cs "boom")
        (ai_code_worker_thread (fun _ => true)
          (openai_agent (Except.error (cs "boom"))) []).status = false) ∧
    (ai_code_worker_thread (fun _ => true)
        (openai_agent (Except.error (cs "bpy.x"))) []).queue
      = [cs "Error: bpy.x"] := by
  decide

/-- C2 witness: the amended theorem's adapter-failure leg applied to the
concrete `boom` run, its hypotheses checked by evaluation. -/
theorem c2_witness :
    ai_code_worker_thread (fun _ => true)
        (openai_agent (Except.error (cs "boom"))) []
      = ⟨[], noValidCodeMsg, false⟩ :=
  (c2_reject_enqueues_nothing (fun _ => true)
      (openai_agent (Except.error (cs "boom"))) (cs "boom") [] (by decide)).2
    (by decide) (by decide)

/-- C3: one invocation of the drain callback pops and executes every queued
entry in order — a per-entry execution failure is caught and does not prevent
any later entry from being popped and executed — leaves the queue empty, and
returns `None` (signalling completion instead of re-registering itself). -/
theorem c3_timer_drains_queue (execOk : Text → Bool) (q : List Text) :
    (process_queue_timer execOk q).executed.map Prod.fst = q ∧
    (process_queue_timer execOk q).finalQueue = [] ∧
    (process_queue_timer execOk q).retval = none := by
  induction q with
  | nil => exact ⟨rfl, rfl, rfl⟩
  | cons c rest ih =>
    obtain ⟨ih1, ih2, ih3⟩ := ih
    refine ⟨?_, ?_, ?_⟩
    · simp [process_queue_timer, ih1]
    · simpa [process_queue_timer] using ih2
    · simpa [process_queue_timer] using ih3

/-- C4 (amended): the sanitization gate is idempotent on a successful,
non-empty result, provided that result still carries a bpy marker
(`import bpy` or `bpy.` as a substring) and no fence pattern matches inside
it with a nonempty body — an embedded fence whose body strips to empty, the
kind a string literal in a fallback-extracted output can carry, is fine,
since it falls through to the bpy fallback exactly as on the first run.
Re-running `preprocess_code` on such an output returns it unchanged.
(Without the marker the re-run rejects the output outright, as the
counterexample shows; a nonempty-bodied fence would be re-extracted to a
strictly shorter string.) -/
theorem c4_idempotent_on_marked_output (parses : Text → Bool) (text s : Text)
    (h : preprocess_code parses text = s) (hne : s ≠ [])
    (hmark : (containsSub (cs "import bpy") s || containsSub (cs "bpy.") s) = true)
    (hnof : extractFenced s = none ∨ extractFenced s = some []) :
    preprocess_code parses s = s := by
  obtain ⟨c, hx, hsc, hdeny, hparse⟩ := preprocess_success h hne
  obtain ⟨b, hb⟩ := extractCode_pyStrip hx
  have hcstr : strippedB c = true := by
    rw [hb]
    exact strippedB_pyStrip b
  have hystr : strippedB (tabRepl c) = true := strippedB_tabRepl hcstr
  have hyne : tabRepl c ≠ [] := by
    intro h0
    rw [hsc, h0, dedent_nil] at hne
    exact hne rfl
  have hsstr : strippedB s = true := by
    rw [hsc]
    exact strippedB_dedent hystr hyne
  have hsded : dedent s = s := by
    rw [hsc]
    exact dedent_dedent hystr hyne (by rw [← hsc]; exact hne)
  have hstab : '\t' ∉ s := by
    intro hmem
    rw [hsc] at hmem
    rcases mem_dedent hmem with hmem2 | heq
    · exact tabRepl_no_tab c hmem2
    · exact absurd heq (by decide)
  have hx2 : extractCode s = some (pyStrip s) := by
    rcases hnof with hnof | hnof
    · exact extractCode_fallback hnof hmark
    · exact extractCode_empty_fence hnof hmark
  have hps : pyStrip s = s := pyStrip_eq_self hsstr
  rw [hps] at hx2
  simp only [preprocess_code, hx2, tabRepl_eq_self hstab, hsded, hdeny,
    Bool.false_eq_true, if_false, hparse, if_true]

/-- C4 counterexample: the gate is not idempotent as claimed.  On the fenced
input the gate returns the non-empty validated string `a = 1`, but re-running
the gate on that very output rejects it (no fence and no bpy marker), giving
the empty string instead of the same string. -/
theorem c4_counterexample :
    preprocess_code (fun _ => true) (cs "```python\na = 1\n```") = cs "a = 1" ∧
    cs "a = 1" ≠ [] ∧
    preprocess_code (fun _ => true) (cs "a = 1") = [] := by
  decide

/-- C4 witness: a fallback-extracted bpy snippet is a fixed point of the
gate, and so is a fallback-extracted output embedding an empty-bodied fence
inside a string literal (both inputs are valid Python, consistent with the
all-accepting oracle). -/
theorem c4_witness :
    preprocess_code (fun _ => true) (cs "import bpy\nx = 1") = cs "import bpy\nx = 1" ∧
    preprocess_code (fun _ => true) (cs "import bpy\ns = \"\"\"```python\n\n```\"\"\"")
      = cs "import bpy\ns = \"\"\"```python\n\n```\"\"\"" :=
  ⟨c4_idempotent_on_marked_output (fun _ => true) (cs "import bpy\nx = 1")
      (cs "import bpy\nx = 1") (by decide) (by decide) (by decide)
      (Or.inl (by decide)),
   c4_idempotent_on_marked_output (fun _ => true)
      (cs "import bpy\ns = \"\"\"```python\n\n```\"\"\"")
      (cs "import bpy\ns = \"\"\"```python\n\n```\"\"\"") (by decide) (by decide)
      (by decide) (Or.inr (by decide))⟩

set_option maxRecDepth 8192 in
/-- C5 counterexample: Blender's `rotation_mode` enum also contains
`AXIS_ANGLE`, a rotation representation that is not three Euler angles, but
`describe_scene` tests only for `QUATERNION` (line 127 of the source): the
line produced for an axis-angle object carries the rounded `rotation_euler`
numbers and not the fixed non-Euler marker, refuting the claim as stated
over every object whose rotation cannot be expressed as three Euler
angles. -/
theorem c5_counterexample :
    objLine fmtZero aaObj = some (formatLine fmtZero aaObj) ∧
    containsSub (cs "Quaternion") (formatLine fmtZero aaObj) = false := by
  decide

/-- C5 (amended): for a scene object in `QUATERNION` rotation mode — the one
non-Euler representation the code tests for — whose field access does not
raise, `describe_scene`'s per-object formatter produces a line, and that
line contains the literal `Quaternion` marker in place of the three rotation
values; an `AXIS_ANGLE` object instead gets its stored `rotation_euler`
numbers. -/
theorem c5_quaternion_marker (fmt : ℚ → Text) (o : BObject)
    (hnr : o.formatRaises = false) (hq : o.rotation_mode = cs "QUATERNION") :
    ∃ l, objLine fmt o = some l ∧ containsSub (cs "Quaternion") l = true := by
  refine ⟨formatLine fmt o, ?_, ?_⟩
  · simp [objLine, hnr]
  · rw [containsSub, decide_eq_true_eq]
    refine ⟨cs "- Name: " ++ o.name ++ cs " | Type: " ++ o.objType ++ cs " | Loc: "
        ++ fmtTriple fmt (roundTriple o.location) ++ cs " | Rot: ",
      cs " | Scale: " ++ fmtTriple fmt (roundTriple o.scale) ++ cs " | Mat: "
        ++ (match o.active_material with
            | some m => m
            | none => cs "None"), ?_⟩
    simp [formatLine, hq, List.append_assoc]

/-- C5 witness: the concrete quaternion-mode object `qObj` gets a line
containing the marker. -/
theorem c5_witness :
    ∃ l, objLine fmtZero qObj = some l ∧ containsSub (cs "Quaternion") l = true :=
  c5_quaternion_marker fmtZero qObj rfl rfl

/-- C6 (amended): for every snippet that does not itself contain the triple
backtick delimiter and is not whitespace-only, wrapping it in each of the
three supported fence styles and running the extraction phase yields the
same byte-identical extracted code — the stripped snippet — for all three
styles.  (An arbitrary valid snippet may embed fence delimiters in a string
literal, and then the styles disagree, as the counterexample shows.) -/
theorem c6_fence_roundtrip (s : Text) (hs : containsSub fenceClose s = false)
    (hne : pyStrip s ≠ []) :
    extractCode (wrapFence (cs "```python\n") s) = some (pyStrip s) ∧
    extractCode (wrapFence (cs "```py\n") s) = some (pyStrip s) ∧
    extractCode (wrapFence (cs "```\n") s) = some (pyStrip s) :=
  ⟨extractCode_of_fenced (extractFenced_wrap1 hs) hne,
   extractCode_of_fenced (extractFenced_wrap2 hs) hne,
   extractCode_of_fenced (extractFenced_wrap3 hs) hne⟩

/-- C6 counterexample: the snippet `t = \x22\x22\x22 ... \x22\x22\x22`
(a syntactically valid, denylist-free Python assignment of a string literal
that happens to contain a fenced block) extracts differently under the
python-tagged and py-tagged fence styles, refuting the round-trip claim as
stated for arbitrary valid snippets. -/
theorem c6_counterexample :
    denyListed (cs "t = \"\"\"```python\nfoo```\"\"\"") = false ∧
    extractCode (wrapFence (cs "```python\n") (cs "t = \"\"\"```python\nfoo```\"\"\""))
      ≠ extractCode (wrapFence (cs "```py\n") (cs "t = \"\"\"```python\nfoo```\"\"\"")) := by
  decide

/-- C6 witness: the amended theorem at a concrete fence-free snippet. -/
theorem c6_witness :
    extractCode (wrapFence (cs "```python\n") (cs "import bpy\nx = 1"))
        = some (pyStrip (cs "import bpy\nx = 1")) ∧
    extractCode (wrapFence (cs "```py\n") (cs "import bpy\nx = 1"))
        = some (pyStrip (cs "import bpy\nx = 1")) ∧
    extractCode (wrapFence (cs "```\n") (cs "import bpy\nx = 1"))
        = some (pyStrip (cs "import bpy\nx = 1")) :=
  c6_fence_roundtrip (cs "import bpy\nx = 1") (by decide) (by decide)

/-- C7 (amended): for every scene with more than 50 objects in which none of
the first 50 objects fails to format, the snapshot reader renders exactly 50
object lines, and the rendered description is exactly those lines joined by
newlines.  (If one of the first 50 objects raises during formatting it is
skipped and fewer than 50 lines appear, as the counterexample shows.) -/
theorem c7_cap_at_fifty (fmt : ℚ → Text) (objs : List BObject)
    (hlen : 50 < objs.length) (hok : ∀ o ∈ objs, o.formatRaises = false) :
    (sceneLines fmt objs).length = 50 ∧
    describe_scene fmt objs = joinLines (sceneLines fmt objs) := by
  have hmap : (objs.take 50).filterMap (objLine fmt)
      = (objs.take 50).map (formatLine fmt) :=
    filterMap_objLine_map (fun o ho => hok o (List.mem_of_mem_take ho))
  have hlength : (sceneLines fmt objs).length = 50 := by
    rw [sceneLines, hmap, List.length_map, List.length_take]
    exact min_eq_left (by omega)
  refine ⟨hlength, ?_⟩
  have hempty : (sceneLines fmt objs).isEmpty = false := by
    cases hi : (sceneLines fmt objs).isEmpty with
    | false => rfl
    | true =>
      rw [List.isEmpty_iff.mp hi] at hlength
      cases hlength
  simp [describe_scene, hempty]

/-- C7 counterexample: a scene of 51 objects whose first object raises during
formatting renders 49 object lines, not exactly 50, refuting the claim as
stated for arbitrary scenes with more than 50 objects. -/
theorem c7_counterexample :
    (rObj :: List.replicate 50 okObj).length = 51 ∧
    (sceneLines fmtZero (rObj :: List.replicate 50 okObj)).length = 49 := by
  constructor
  · simp
  · rfl

/-- C7 witness: 51 well-behaved objects yield exactly 50 lines. -/
theorem c7_witness :
    (sceneLines fmtZero (List.replicate 51 okObj)).length = 50 ∧
    describe_scene fmtZero (List.replicate 51 okObj)
      = joinLines (sceneLines fmtZero (List.replicate 51 okObj)) :=
  c7_cap_at_fifty fmtZero (List.replicate 51 okObj) (by simp)
    (fun o ho => by rw [(List.mem_replicate.mp ho).2]; rfl)

/-- C8: the local-model strategy passes the explicit sampling options
(temperature 0.1, output length capped at 2048) if and only if the model
identifier is a cloud variant: an exact member of the fixed `CLOUD_MODELS`
list or an identifier ending in `-cloud`.  A non-cloud local identifier is
called without options. -/
theorem c8_cloud_options_iff (option prompt system_prompt : Text) :
    (llm_agent_request option prompt system_prompt).options = some ⟨1/10, 2048⟩ ↔
      (option ∈ CLOUD_MODELS ∨ ∃ p, option = p ++ cs "-cloud") := by
  rw [llm_agent_request]
  cases hc : is_cloud_model option with
  | true =>
    simp only [if_true]
    constructor
    · intro _
      exact (is_cloud_model_iff option).mp hc
    · intro _
      trivial
  | false =>
    simp only [Bool.false_eq_true, if_false]
    constructor
    · intro h
      exact Option.noConfusion h
    · intro h
      have hcc := (is_cloud_model_iff option).mpr h
      rw [hc] at hcc
      cases hcc

/-- C8 witness: a listed cloud model gets the options, and the iff applied in
the other direction shows a plain local identifier would contradict
`is_cloud_model`. -/
theorem c8_witness :
    (llm_agent_request (cs "gpt-oss:120b-cloud") (cs "p") (cs "sys")).options
      = some ⟨1/10, 2048⟩ :=
  (c8_cloud_options_iff (cs "gpt-oss:120b-cloud") (cs "p") (cs "sys")).mpr
    (Or.inl (by decide))

/-- C9: a syntactically invalid snippet (one the `ast.parse` oracle rejects)
wrapped in a valid fenced block of any of the three supported styles —
python-tagged, py-tagged or untagged — is rejected by the sanitization gate,
which returns the empty string; in the embedding the gate is a total
function, as in the source every raised error is caught and becomes the
empty result. -/
theorem c9_syntax_error_rejects (parses : Text → Bool) (s : Text)
    (hs : containsSub fenceClose s = false) (hne : pyStrip s ≠ [])
    (hbad : parses (dedent (tabRepl (pyStrip s))) = false) :
    preprocess_code parses (wrapFence (cs "```python\n") s) = [] ∧
    preprocess_code parses (wrapFence (cs "```py\n") s) = [] ∧
    preprocess_code parses (wrapFence (cs "```\n") s) = [] := by
  have hrej : ∀ t : Text, extractCode t = some (pyStrip s) →
      preprocess_code parses t = [] := by
    intro t hx
    simp only [preprocess_code, hx]
    cases hd : denyListed (dedent (tabRepl (pyStrip s))) with
    | true => simp [hd]
    | false => simp [hd, hbad]
  exact ⟨hrej _ (extractCode_of_fenced (extractFenced_wrap1 hs) hne),
         hrej _ (extractCode_of_fenced (extractFenced_wrap2 hs) hne),
         hrej _ (extractCode_of_fenced (extractFenced_wrap3 hs) hne)⟩

/-- C9 witness: the unbalanced snippet `x = (` wrapped in each of the three
fence styles is rejected under an oracle that rejects it, as `ast.parse`
does. -/
theorem c9_witness :
    preprocess_code (fun _ => false) (wrapFence (cs "```python\n") (cs "x = (")) = [] ∧
    preprocess_code (fun _ => false) (wrapFence (cs "```py\n") (cs "x = (")) = [] ∧
    preprocess_code (fun _ => false) (wrapFence (cs "```\n") (cs "x = (")) = [] :=
  c9_syntax_error_rejects (fun _ => false) (cs "x = (") (by decide) (by decide) rfl

/-- C10 (implicit): `describe_scene` returns the literal `Scene is empty.`
sentinel whenever zero object lines are produced — not only for a scene with
zero objects but for any scene in which every object's formatting raises and
is skipped; a caller cannot distinguish the two situations from the
output. -/
theorem c10_empty_sentinel (fmt : ℚ → Text) (objs : List BObject)
    (h : ∀ o ∈ objs, o.formatRaises = true) :
    describe_scene fmt objs = cs "Scene is empty." := by
  have hl : sceneLines fmt objs = [] := by
    rw [sceneLines]
    exact filterMap_objLine_nil (fun o ho => h o (List.mem_of_mem_take ho))
  simp [describe_scene, hl]

/-- C10 witness: the empty scene and a one-object scene whose object raises
produce the same sentinel. -/
theorem c10_witness :
    describe_scene fmtZero [] = cs "Scene is empty." ∧
    describe_scene fmtZero [rObj] = cs "Scene is empty." :=
  ⟨c10_empty_sentinel fmtZero [] (by simp),
   c10_empty_sentinel fmtZero [rObj] (by decide)⟩

end BlenderLLM
